import Mathlib

/-!
Shallow embedding of the match-selection and context-window rendering engine of
`vecgrep` (`src/main.rs`).  Lines are identified by their zero-based index;
similarity scores are modelled as rationals (the comparison and selection logic
of the source uses only ordering of `f32` values, never rounding).
-/

namespace Vecgrep

/-- Threshold-mode match mask (`main.rs` 143-151 and `run_stream` 262-263):
a line matches iff `score >= threshold`. -/
def thresholdMask (scores : List ℚ) (threshold : ℚ) : List Bool :=
  scores.map (fun s => decide (threshold ≤ s))

/-- `selection_count` of threshold mode (`main.rs` 145-151): the number of
lines whose score reaches the threshold. -/
def selectionCount (scores : List ℚ) (threshold : ℚ) : ℕ :=
  (thresholdMask scores threshold).count true

/-- All scores sorted ascending (`main.rs` 208-209: `all_scores.sort_by` with
`partial_cmp`).  The source's stable sort is modelled by insertion sort, which
computes the same list for a total comparator. -/
def sortedScores (scores : List ℚ) : List ℚ :=
  List.insertionSort (· ≤ ·) scores

/-- Rust `f32::round`: round half away from zero. -/
def rustRound (x : ℚ) : ℤ :=
  if 0 ≤ x then round x else -round (-x)

/-- The index computed by the quantile closure `q` (`main.rs` 216-217):
`((n as f32 - 1.0) * p).round() as usize` (the float-to-usize cast saturates
below at 0, as `Int.toNat` does). -/
def qIndex (scores : List ℚ) (p : ℚ) : ℕ :=
  (rustRound (((scores.length : ℚ) - 1) * p)).toNat

/-- The quantile closure `q` (`main.rs` 211-219): `0` on an empty population,
otherwise the ascending-sorted scores indexed at `qIndex`; an out-of-range
index (a Rust panic in the source) is modelled as `none`. -/
def quantile (scores : List ℚ) (p : ℚ) : Option ℚ :=
  if scores.isEmpty then some 0 else (sortedScores scores)[qIndex scores p]?

/-- Index list sorted by descending score (`main.rs` 128-129: stable sort of
`0..len` by the comparator `scores[j].partial_cmp(&scores[i])`), modelled by
the equally stable insertion sort. -/
def topIndices (scores : List ℚ) : List ℕ :=
  List.insertionSort (fun i j => scores.getD j 0 ≤ scores.getD i 0) (List.range scores.length)

/-- Top-N match mask (`main.rs` 125-131): starting from an all-`false` mask of
the lines, set the first `min N len` entries of the descending index list. -/
def topNMask (scores : List ℚ) (N : ℕ) : List Bool :=
  ((topIndices scores).take (min N scores.length)).foldl
    (fun m idx => m.set idx true) (List.replicate scores.length false)

/-- The scores of the selected top-N lines, in selection order
(`main.rs` 133-136: `indices.iter().take(n).map(|&i| scores[i])`). -/
def selectedScores (scores : List ℚ) (N : ℕ) : List ℚ :=
  ((topIndices scores).take (min N scores.length)).map (fun i => scores.getD i 0)

/-- `min_selected` (`main.rs` 133-137): the fold of `min` over the selected
scores starting from `1.0`; this value is printed in the top-N summary. -/
def minSelected (scores : List ℚ) (N : ℕ) : ℚ :=
  (selectedScores scores N).foldl min 1

/-- The inner absorption loop of the batch window engine (`main.rs` 170-182):
starting at `j` with current end `e`, while `j` is in range, `is_match[j]`
holds and the candidate start `j - before` does not pass `e`, set the end to
`min (j + 1 + after) len` and advance `j`; the loop breaks at the first index
that fails any of these tests. -/
def extendEnd (m : List Bool) (before after : ℕ) (j e : ℕ) : ℕ :=
  if h : j < m.length then
    if m[j] then
      if j - before ≤ e then
        extendEnd m before after (j + 1) (min (j + 1 + after) m.length)
      else e
    else e
  else e
termination_by m.length - j
decreasing_by omega

lemma extendEnd_lb (m : List Bool) (before after lo : ℕ) :
    ∀ j e, lo ≤ j → lo ≤ e → e ≤ m.length → lo ≤ extendEnd m before after j e := by
  intro j e
  induction j, e using extendEnd.induct m before after with
  | case1 j e h hm hle ih =>
    intro hj he hlen
    rw [extendEnd, dif_pos h, if_pos hm, if_pos hle]
    exact ih (by omega) (by omega) (by omega)
  | case2 j e h hm hle =>
    intro _ he _
    rw [extendEnd, dif_pos h, if_pos hm, if_neg hle]
    exact he
  | case3 j e h hm =>
    intro _ he _
    rw [extendEnd, dif_pos h, if_neg (by simpa using hm)]
    exact he
  | case4 j e h =>
    intro _ he _
    rw [extendEnd, dif_neg h]
    exact he

lemma extendEnd_ub (m : List Bool) (before after : ℕ) :
    ∀ j e, e ≤ m.length → extendEnd m before after j e ≤ m.length := by
  intro j e
  induction j, e using extendEnd.induct m before after with
  | case1 j e h hm hle ih =>
    intro hlen
    rw [extendEnd, dif_pos h, if_pos hm, if_pos hle]
    exact ih (by omega)
  | case2 j e h hm hle =>
    intro hlen
    rw [extendEnd, dif_pos h, if_pos hm, if_neg hle]
    exact hlen
  | case3 j e h hm =>
    intro hlen
    rw [extendEnd, dif_pos h, if_neg (by simpa using hm)]
    exact hlen
  | case4 j e h =>
    intro hlen
    rw [extendEnd, dif_neg h]
    exact hlen

/-- The final end of the window opened at match index `i` (`main.rs` 167-182):
the initial candidate end `min (i + 1 + after) len` extended by the absorption
loop starting at `j = i + 1`. -/
def windowEnd (m : List Bool) (before after : ℕ) (i : ℕ) : ℕ :=
  extendEnd m before after (i + 1) (min (i + 1 + after) m.length)

lemma windowEnd_lb (m : List Bool) (before after : ℕ) (i : ℕ) (h : i < m.length) :
    i + 1 ≤ windowEnd m before after i :=
  extendEnd_lb m before after (i + 1) (i + 1) (min (i + 1 + after) m.length)
    le_rfl (by omega) (by omega)

lemma windowEnd_ub (m : List Bool) (before after : ℕ) (i : ℕ) :
    windowEnd m before after i ≤ m.length :=
  extendEnd_ub m before after (i + 1) (min (i + 1 + after) m.length) (by omega)

/-- The outer scan of the batch window engine (`main.rs` 160-205), collecting
the emitted windows `[start, end)` in emission order: skip non-matches; at a
match `i` emit `(max (i - before) 0, windowEnd i)` and continue the scan from
that end. -/
def batchWindows (m : List Bool) (before after : ℕ) (i : ℕ) : List (ℕ × ℕ) :=
  if h : i < m.length then
    if m[i] then
      (i - before, windowEnd m before after i) ::
        batchWindows m before after (windowEnd m before after i)
    else batchWindows m before after (i + 1)
  else []
termination_by m.length - i
decreasing_by
  · have h1 := windowEnd_lb m before after i h
    omega
  · omega

/-- The printing done by the batch loop (`main.rs` 184-205), as a token list:
`Sum.inl k` is line `k` printed (with its score annotation when `is_match[k]`
and scores are shown), `Sum.inr ()` is a `--` block separator, emitted after a
block whenever its end has not reached the end of input (`main.rs` 199-202). -/
def batchTokens (m : List Bool) (before after : ℕ) (i : ℕ) : List (ℕ ⊕ Unit) :=
  if h : i < m.length then
    if m[i] then
      (List.range' (i - before) (windowEnd m before after i - (i - before))).map Sum.inl ++
        (if windowEnd m before after i < m.length then [Sum.inr ()] else []) ++
        batchTokens m before after (windowEnd m before after i)
    else batchTokens m before after (i + 1)
  else []
termination_by m.length - i
decreasing_by
  · have h1 := windowEnd_lb m before after i h
    omega
  · omega

/-- The line indices printed by a batch run on match mask `m`, in print order
(context lines and match lines alike). -/
def batchRenderedIdxs (m : List Bool) (before after : ℕ) : List ℕ :=
  (batchTokens m before after 0).filterMap Sum.getLeft?

/-- Modelled from claim C1: line index `k` lies within before/after reach of
some matched index `i`, i.e. `i - before ≤ k < min (i + 1 + after) len`. -/
def inReachB (m : List Bool) (before after k : ℕ) : Bool :=
  (List.range m.length).any fun i =>
    m.getD i false && decide (i - before ≤ k) && decide (k < i + 1 + after) &&
      decide (k < m.length)

/-- Modelled from the spec (claim C2): the context interval
`[max (0, i - before), min (len, i + 1 + after))` of each match index, in
increasing match order. -/
def matchIntervals (m : List Bool) (before after : ℕ) : List (ℕ × ℕ) :=
  ((List.range m.length).filter fun i => m.getD i false).map fun i =>
    (i - before, min (i + 1 + after) m.length)

/-- Modelled from the spec (claim C2): classic left-to-right merge of the
sorted interval list: absorb the next interval whenever its start does not
pass the current end, extending the end to the absorbed interval's end. -/
def mergeGo : ℕ × ℕ → List (ℕ × ℕ) → List (ℕ × ℕ)
  | cur, [] => [cur]
  | cur, iv :: rest =>
      if iv.1 ≤ cur.2 then mergeGo (cur.1, iv.2) rest else cur :: mergeGo iv rest

/-- Modelled from the spec (claim C2): the minimal set of maximal merged
blocks obtained by interval-merging the match intervals. -/
def specMergedWindows (m : List Bool) (before after : ℕ) : List (ℕ × ℕ) :=
  match matchIntervals m before after with
  | [] => []
  | iv :: rest => mergeGo iv rest

/-- Modelled from claim C3: render the emitted windows with a `--` separator
between two consecutive windows exactly when they are not adjacent, and never
after the final window. -/
def claimSepTokens : List (ℕ × ℕ) → List (ℕ ⊕ Unit)
  | [] => []
  | [w] => (List.range' w.1 (w.2 - w.1)).map Sum.inl
  | w :: w2 :: rest =>
      (List.range' w.1 (w.2 - w.1)).map Sum.inl ++
        (if w2.1 = w.2 then [] else [Sum.inr ()]) ++ claimSepTokens (w2 :: rest)

/-- Modelled from the amended claim C3: render the emitted windows with a `--`
separator after every window whose end is strictly below the line count,
regardless of adjacency. -/
def windowsSepRender (len : ℕ) : List (ℕ × ℕ) → List (ℕ ⊕ Unit)
  | [] => []
  | w :: rest =>
      (List.range' w.1 (w.2 - w.1)).map Sum.inl ++
        (if w.2 < len then [Sum.inr ()] else []) ++ windowsSepRender len rest

/-- The mutable state of `run_stream` (`main.rs` 248-251): the bounded
before-context buffer (line indices), the owed trailing-context count, and the
two rendering flags. -/
structure StreamState where
  beforeBuf : List ℕ
  afterRemaining : ℕ
  printedAny : Bool
  printedPrevLine : Bool

/-- The initial streaming state (`main.rs` 248-251). -/
def initState : StreamState :=
  ⟨[], 0, false, false⟩

/-- The before-buffer update (`main.rs` 293-299), run after every line when
`before > 0`: evict the oldest entry exactly when the buffer is full, then
push the current line. -/
def pushBuf (before : ℕ) (buf : List ℕ) (idx : ℕ) : List ℕ :=
  if 0 < before then (if buf.length = before then buf.tail else buf) ++ [idx] else buf

/-- One iteration of the `run_stream` loop (`main.rs` 256-300) on the line of
index `idx` and score `score`: returns the next state and the tokens printed
during the iteration (`Sum.inl k` prints line `k`, `Sum.inr ()` prints `--`). -/
def streamStep (threshold : ℚ) (before after : ℕ) (st : StreamState) (idx : ℕ)
    (score : ℚ) : StreamState × List (ℕ ⊕ Unit) :=
  if threshold ≤ score then
    (⟨pushBuf before st.beforeBuf idx, after, true, true⟩,
      (if st.printedAny && !st.printedPrevLine then [Sum.inr ()] else []) ++
        (if !st.printedPrevLine && decide (0 < before) then st.beforeBuf.map Sum.inl
          else []) ++ [Sum.inl idx])
  else if 0 < st.afterRemaining then
    (⟨pushBuf before st.beforeBuf idx, st.afterRemaining - 1, true, true⟩, [Sum.inl idx])
  else
    (⟨pushBuf before st.beforeBuf idx, st.afterRemaining, st.printedAny, false⟩, [])

/-- The `run_stream` loop over the remaining scores, threading the state and
collecting the printed tokens; `idx` is the index of the next line. -/
def streamProc (threshold : ℚ) (before after : ℕ) :
    StreamState → ℕ → List ℚ → StreamState × List (ℕ ⊕ Unit)
  | st, _, [] => (st, [])
  | st, idx, s :: rest =>
    ((streamProc threshold before after (streamStep threshold before after st idx s).1
        (idx + 1) rest).1,
      (streamStep threshold before after st idx s).2 ++
        (streamProc threshold before after (streamStep threshold before after st idx s).1
          (idx + 1) rest).2)

/-- Everything printed by a full `run_stream` run (`main.rs` 246-303). -/
def streamTokens (scores : List ℚ) (threshold : ℚ) (before after : ℕ) :
    List (ℕ ⊕ Unit) :=
  (streamProc threshold before after initState 0 scores).2

/-- The line indices printed by a streaming run, in print order. -/
def streamRenderedIdxs (scores : List ℚ) (threshold : ℚ) (before after : ℕ) : List ℕ :=
  (streamTokens scores threshold before after).filterMap Sum.getLeft?

/-- The streaming state after the first `k` input lines have been processed. -/
def streamStateAfter (scores : List ℚ) (threshold : ℚ) (before after : ℕ) (k : ℕ) :
    StreamState :=
  (streamProc threshold before after initState 0 (scores.take k)).1

lemma getD_thresholdMask (scores : List ℚ) (t : ℚ) (i : ℕ) (hi : i < scores.length) :
    (thresholdMask scores t).getD i false = decide (t ≤ scores.getD i 0) := by
  simp [thresholdMask, List.getD_eq_getElem?_getD, List.getElem?_map,
    List.getElem?_eq_getElem hi]

/-- Claim C9: threshold selection is inclusive (a line matches iff its score is
at least the threshold) and monotonic (raising the threshold never increases
the selected count). -/
theorem threshold_inclusive_and_monotone (scores : List ℚ) (t1 t2 : ℚ) (h : t1 ≤ t2) :
    (∀ i, i < scores.length →
        ((thresholdMask scores t1).getD i false = true ↔ t1 ≤ scores.getD i 0)) ∧
      selectionCount scores t2 ≤ selectionCount scores t1 := by
  constructor
  · intro i hi
    rw [getD_thresholdMask scores t1 i hi]
    exact decide_eq_true_iff
  · unfold selectionCount thresholdMask
    rw [List.count_eq_countP, List.count_eq_countP, List.countP_map, List.countP_map]
    refine List.countP_mono_left fun s _ hs => ?_
    simp only [Function.comp_apply, beq_iff_eq, decide_eq_true_eq] at hs ⊢
    exact le_trans h hs

/-- Witness for C9 at scores `[1, 3, 2]`, thresholds `2 ≤ 3`. -/
theorem threshold_inclusive_and_monotone_witness :
    (∀ i, i < ([1, 3, 2] : List ℚ).length →
        ((thresholdMask [1, 3, 2] 2).getD i false = true ↔ 2 ≤ ([1, 3, 2] : List ℚ).getD i 0)) ∧
      selectionCount [1, 3, 2] 3 ≤ selectionCount [1, 3, 2] 2 :=
  threshold_inclusive_and_monotone [1, 3, 2] 2 3 (by norm_num)

lemma sortedScores_perm (scores : List ℚ) : List.Perm (sortedScores scores) scores :=
  List.perm_insertionSort _ scores

lemma sortedScores_sorted (scores : List ℚ) : (sortedScores scores).Sorted (· ≤ ·) :=
  List.sorted_insertionSort _ scores

lemma sortedScores_length (scores : List ℚ) : (sortedScores scores).length = scores.length :=
  (sortedScores_perm scores).length_eq

lemma sortedScores_le_of_lt (scores : List ℚ) {i j : ℕ} (hij : i ≤ j)
    (hj : j < (sortedScores scores).length) :
    (sortedScores scores).get ⟨i, lt_of_le_of_lt hij hj⟩ ≤ (sortedScores scores).get ⟨j, hj⟩ :=
  (sortedScores_sorted scores).rel_get_of_le hij

/-- Claim C10: for a non-empty score population the nearest-rank quantile hits
the minimum at `p = 0`, the maximum at `p = 1`, and its index stays inside the
array bounds for every `p` in `[0, 1]`. -/
theorem quantile_min_max_inbounds (scores : List ℚ) (mn mx : ℚ)
    (hmn : scores.minimum = (mn : WithBot ℚ)) (hmx : scores.maximum = (mx : WithBot ℚ)) :
    quantile scores 0 = some mn ∧ quantile scores 1 = some mx ∧
      ∀ p : ℚ, 0 ≤ p → p ≤ 1 → qIndex scores p < scores.length := by
  obtain ⟨hmemn, hminn⟩ := List.minimum_eq_coe_iff.mp hmn
  obtain ⟨hmemx, hmaxx⟩ := List.maximum_eq_coe_iff.mp hmx
  have hne : scores ≠ [] := List.ne_nil_of_mem hmemn
  have hlen : 0 < scores.length := List.length_pos.mpr hne
  have hlen1 : (1 : ℚ) ≤ (scores.length : ℚ) := by exact_mod_cast hlen
  have hlenl : (sortedScores scores).length = scores.length := sortedScores_length scores
  have hlenl0 : 0 < (sortedScores scores).length := hlenl ▸ hlen
  have hq0 : qIndex scores 0 = 0 := by
    simp [qIndex, rustRound]
  have hcast : ((scores.length : ℚ) - 1) = ((scores.length - 1 : ℕ) : ℚ) := by
    push_cast [Nat.cast_sub hlen]
    ring
  have hq1 : qIndex scores 1 = scores.length - 1 := by
    unfold qIndex rustRound
    rw [mul_one, if_pos (by linarith), hcast, round_natCast, Int.toNat_natCast]
  have hbound : ∀ p : ℚ, 0 ≤ p → p ≤ 1 → qIndex scores p < scores.length := by
    intro p hp0 hp1
    have hnn : (0 : ℚ) ≤ ((scores.length : ℚ) - 1) * p := by
      apply mul_nonneg (by linarith) hp0
    have hle : ((scores.length : ℚ) - 1) * p ≤ ((scores.length - 1 : ℕ) : ℚ) := by
      rw [← hcast]
      nlinarith
    have hround : round (((scores.length : ℚ) - 1) * p) ≤ (scores.length - 1 : ℕ) := by
      calc round (((scores.length : ℚ) - 1) * p)
          ≤ round ((scores.length - 1 : ℕ) : ℚ) := by
            rw [round_eq, round_eq]
            exact Int.floor_le_floor (by linarith)
        _ = (scores.length - 1 : ℕ) := round_natCast _
    have h2 : (round (((scores.length : ℚ) - 1) * p)).toNat ≤
        ((scores.length - 1 : ℕ) : ℤ).toNat := Int.toNat_le_toNat hround
    rw [Int.toNat_natCast] at h2
    have h3 : qIndex scores p = (round (((scores.length : ℚ) - 1) * p)).toNat := by
      unfold qIndex rustRound
      rw [if_pos hnn]
    omega
  refine ⟨?_, ?_, hbound⟩
  · have hmem0 : (sortedScores scores).get ⟨0, hlenl0⟩ ∈ scores :=
      (sortedScores_perm scores).mem_iff.mp (List.get_mem _ _ _)
    obtain ⟨⟨k, hk⟩, hkeq⟩ := List.get_of_mem ((sortedScores_perm scores).mem_iff.mpr hmemn)
    have h1 : (sortedScores scores).get ⟨0, hlenl0⟩ ≤ mn := by
      rw [← hkeq]
      exact sortedScores_le_of_lt scores (Nat.zero_le k) hk
    have h2 : mn ≤ (sortedScores scores).get ⟨0, hlenl0⟩ := hminn _ hmem0
    have : (sortedScores scores).get ⟨0, hlenl0⟩ = mn := le_antisymm h1 h2
    simp [quantile, hne, hq0, List.getElem?_eq_getElem hlenl0, ← this, List.get_eq_getElem]
  · have hlast : scores.length - 1 < (sortedScores scores).length := by omega
    have hmeml : (sortedScores scores).get ⟨scores.length - 1, hlast⟩ ∈ scores :=
      (sortedScores_perm scores).mem_iff.mp (List.get_mem _ _ _)
    obtain ⟨⟨k, hk⟩, hkeq⟩ := List.get_of_mem ((sortedScores_perm scores).mem_iff.mpr hmemx)
    have h1 : mx ≤ (sortedScores scores).get ⟨scores.length - 1, hlast⟩ := by
      rw [← hkeq]
      have hk' : k ≤ scores.length - 1 := by
        have := hk
        rw [hlenl] at this
        omega
      exact sortedScores_le_of_lt scores hk' hlast
    have h2 : (sortedScores scores).get ⟨scores.length - 1, hlast⟩ ≤ mx := hmaxx _ hmeml
    have : (sortedScores scores).get ⟨scores.length - 1, hlast⟩ = mx := le_antisymm h2 h1
    simp [quantile, hne, hq1, List.getElem?_eq_getElem hlast, ← this, List.get_eq_getElem]

/-- Witness for C10 at scores `[1, 3, 2]` with minimum 1 and maximum 3. -/
theorem quantile_min_max_inbounds_witness :
    quantile [1, 3, 2] 0 = some 1 ∧ quantile [1, 3, 2] 1 = some 3 ∧
      ∀ p : ℚ, 0 ≤ p → p ≤ 1 → qIndex [1, 3, 2] p < ([1, 3, 2] : List ℚ).length :=
  quantile_min_max_inbounds [1, 3, 2] 1 3 (by decide) (by decide)

lemma topIndices_perm (scores : List ℚ) :
    List.Perm (topIndices scores) (List.range scores.length) :=
  List.perm_insertionSort _ _

lemma topIndices_sorted (scores : List ℚ) :
    (topIndices scores).Sorted (fun i j => scores.getD j 0 ≤ scores.getD i 0) := by
  haveI : IsTotal ℕ (fun i j => scores.getD j 0 ≤ scores.getD i 0) :=
    ⟨fun a b => le_total _ _⟩
  haveI : IsTrans ℕ (fun i j => scores.getD j 0 ≤ scores.getD i 0) :=
    ⟨fun _ _ _ hab hbc => le_trans hbc hab⟩
  exact List.sorted_insertionSort _ _

lemma topIndices_nodup (scores : List ℚ) : (topIndices scores).Nodup :=
  ((topIndices_perm scores).nodup_iff).mpr (List.nodup_range _)

lemma mem_topIndices (scores : List ℚ) (i : ℕ) :
    i ∈ topIndices scores ↔ i < scores.length := by
  rw [(topIndices_perm scores).mem_iff, List.mem_range]

lemma getD_foldl_set (l : List ℕ) (m : List Bool) (k : ℕ) :
    (l.foldl (fun m idx => m.set idx true) m).getD k false = true ↔
      (k ∈ l ∧ k < m.length) ∨ m.getD k false = true := by
  induction l generalizing m with
  | nil => simp
  | cons i l ih =>
    rw [List.foldl_cons, ih]
    simp only [List.length_set, List.mem_cons]
    constructor
    · rintro (⟨hk, hlen⟩ | hset)
      · exact Or.inl ⟨Or.inr hk, hlen⟩
      · rw [List.getD_eq_getElem?_getD, List.getElem?_set] at hset
        by_cases hik : i = k
        · subst hik
          by_cases hlt : i < m.length
          · exact Or.inl ⟨Or.inl rfl, hlt⟩
          · simp [hlt] at hset
        · rw [if_neg hik] at hset
          exact Or.inr (by rwa [List.getD_eq_getElem?_getD])
    · rintro (⟨hk | hk, hlen⟩ | hm)
      · subst hk
        refine Or.inr ?_
        rw [List.getD_eq_getElem?_getD, List.getElem?_set, if_pos rfl, if_pos hlen]
        rfl
      · exact Or.inl ⟨hk, hlen⟩
      · by_cases hik : i = k
        · subst hik
          refine Or.inr ?_
          have hlen : i < m.length := by
            rw [List.getD_eq_getElem?_getD] at hm
            by_contra hge
            rw [List.getElem?_eq_none (by omega)] at hm
            simp at hm
          rw [List.getD_eq_getElem?_getD, List.getElem?_set, if_pos rfl, if_pos hlen]
          rfl
        · refine Or.inr ?_
          rw [List.getD_eq_getElem?_getD, List.getElem?_set, if_neg hik]
          rwa [List.getD_eq_getElem?_getD] at hm

lemma getD_topNMask (scores : List ℚ) (N : ℕ) (k : ℕ) :
    (topNMask scores N).getD k false = true ↔
      k ∈ (topIndices scores).take (min N scores.length) := by
  unfold topNMask
  rw [getD_foldl_set]
  simp only [List.length_replicate]
  constructor
  · rintro (⟨hk, _⟩ | habs)
    · exact hk
    · rw [List.getD_eq_getElem?_getD] at habs
      rcases lt_or_ge k scores.length with hlt | hge
      · rw [List.getElem?_eq_getElem (by simpa using hlt)] at habs
        simp at habs
      · rw [List.getElem?_eq_none (by simpa using hge)] at habs
        simp at habs
  · intro hk
    have hk' : k ∈ topIndices scores := List.mem_of_mem_take hk
    exact Or.inl ⟨hk, (mem_topIndices scores k).mp hk'⟩

lemma count_foldl_set (l : List ℕ) (m : List Bool) (hnd : l.Nodup)
    (hlt : ∀ x ∈ l, x < m.length) (hf : ∀ x ∈ l, m.getD x false = false) :
    (l.foldl (fun m idx => m.set idx true) m).count true = m.count true + l.length := by
  induction l generalizing m with
  | nil => simp
  | cons i l ih =>
    rw [List.foldl_cons]
    have hi : i < m.length := hlt i (List.mem_cons_self i l)
    have hifalse : m[i] = false := by
      have := hf i (List.mem_cons_self i l)
      rwa [List.getD_eq_getElem?_getD, List.getElem?_eq_getElem hi, Option.getD_some] at this
    have hnd' : l.Nodup := (List.nodup_cons.mp hnd).2
    have hni : i ∉ l := (List.nodup_cons.mp hnd).1
    have hcount : (m.set i true).count true = m.count true + 1 := by
      rw [List.count_set true true m i hi, hifalse]
      simp
    rw [ih (m.set i true) hnd' (by simpa using hlt · <| List.mem_cons_of_mem i ·)
      (fun x hx => by
        have hxi : i ≠ x := fun h => hni (h ▸ hx)
        rw [List.getD_eq_getElem?_getD, List.getElem?_set_ne hxi]
        have hfx := hf x (List.mem_cons_of_mem i hx)
        rwa [List.getD_eq_getElem?_getD] at hfx), hcount]
    simp [Nat.add_assoc, Nat.add_comm 1 l.length]

lemma count_topNMask (scores : List ℚ) (N : ℕ) :
    (topNMask scores N).count true = min N scores.length := by
  unfold topNMask
  have hnd : ((topIndices scores).take (min N scores.length)).Nodup :=
    (List.take_sublist _ _).nodup (topIndices_nodup scores)
  have hlt : ∀ x ∈ (topIndices scores).take (min N scores.length),
      x < (List.replicate scores.length false).length := by
    intro x hx
    rw [List.length_replicate]
    exact (mem_topIndices scores x).mp (List.mem_of_mem_take hx)
  have hf : ∀ x ∈ (topIndices scores).take (min N scores.length),
      (List.replicate scores.length false).getD x false = false := by
    intro x _
    rw [List.getD_eq_getElem?_getD, List.getElem?_replicate]
    by_cases h : x < scores.length <;> simp [h]
  rw [count_foldl_set _ _ hnd hlt hf]
  have h1 : (List.replicate scores.length false).count true = 0 := by
    simp [List.count_replicate]
  have h2 : ((topIndices scores).take (min N scores.length)).length = min N scores.length := by
    rw [List.length_take, (topIndices_perm scores).length_eq, List.length_range]
    omega
  omega

/-- Claim C8: top-N mode marks exactly `min N total` lines as matches, every
selected line's score dominates every unselected line's score, `N ≥ total`
selects every line, and `N = 0` selects none. -/
theorem topn_selects_min_n_highest (scores : List ℚ) (N : ℕ) :
    (topNMask scores N).count true = min N scores.length ∧
      (∀ i j, (topNMask scores N).getD i false = true →
        j < scores.length → (topNMask scores N).getD j false = false →
          scores.getD j 0 ≤ scores.getD i 0) ∧
      (scores.length ≤ N → ∀ i, i < scores.length → (topNMask scores N).getD i false = true) ∧
      (N = 0 → ∀ i, (topNMask scores N).getD i false = false) := by
  refine ⟨count_topNMask scores N, ?_, ?_, ?_⟩
  · intro i j hi hj hjf
    rw [getD_topNMask] at hi
    have hj' : j ∉ (topIndices scores).take (min N scores.length) := by
      intro hmem
      rw [(getD_topNMask scores N j).mpr hmem] at hjf
      exact absurd hjf (by decide)
    have hjtop : j ∈ topIndices scores := (mem_topIndices scores j).mpr hj
    have hjdrop : j ∈ (topIndices scores).drop (min N scores.length) := by
      rw [← List.take_append_drop (min N scores.length) (topIndices scores)] at hjtop
      rcases List.mem_append.mp hjtop with h | h
      · exact absurd h hj'
      · exact h
    exact (topIndices_sorted scores).rel_of_mem_take_of_mem_drop hi hjdrop
  · intro hN i hi
    rw [getD_topNMask]
    have hmin : min N scores.length = scores.length := by omega
    have hlen2 : (topIndices scores).length = scores.length := by
      rw [(topIndices_perm scores).length_eq, List.length_range]
    rw [hmin, ← hlen2, List.take_length]
    exact (mem_topIndices scores i).mpr hi
  · intro hN i
    have h : ¬ (topNMask scores N).getD i false = true := by
      rw [getD_topNMask, hN]
      simp
    simpa using h

/-- Witness for C8 at scores `[1, 3, 2]` with `N = 2`, `N = 5` and `N = 0`. -/
theorem topn_selects_min_n_highest_witness :
    (topNMask [1, 3, 2] 2).count true = min 2 3 ∧
      ([1, 3, 2] : List ℚ).getD 0 0 ≤ ([1, 3, 2] : List ℚ).getD 1 0 ∧
      (topNMask [1, 3, 2] 5).getD 0 false = true ∧
      (topNMask [1, 3, 2] 0).getD 0 false = false :=
  ⟨(topn_selects_min_n_highest [1, 3, 2] 2).1,
    (topn_selects_min_n_highest [1, 3, 2] 2).2.1 1 0 (by decide) (by decide) (by decide),
    (topn_selects_min_n_highest [1, 3, 2] 5).2.2.1 (by norm_num) 0 (by norm_num),
    (topn_selects_min_n_highest [1, 3, 2] 0).2.2.2 rfl 0⟩

lemma foldl_min_of_le (l : List ℚ) : ∀ a : ℚ, (∀ x ∈ l, a ≤ x) → l.foldl min a = a := by
  induction l with
  | nil => intro a _; rfl
  | cons y l ih =>
    intro a ha
    rw [List.foldl_cons, min_eq_left (ha y (List.mem_cons_self y l))]
    exact ih a fun x hx => ha x (List.mem_cons_of_mem y hx)

lemma foldl_min_eq (l : List ℚ) (s : ℚ) : ∀ a : ℚ, s ∈ l → (∀ x ∈ l, s ≤ x) → s ≤ a →
    l.foldl min a = s := by
  induction l with
  | nil => intro a h; exact absurd h (List.not_mem_nil s)
  | cons y l ih =>
    intro a hmem hle ha
    rw [List.foldl_cons]
    rcases List.mem_cons.mp hmem with hy | hl
    · subst hy
      rw [min_eq_right ha]
      exact foldl_min_of_le l s fun x hx => hle x (List.mem_cons_of_mem s hx)
    · exact ih (min a y) hl (fun x hx => hle x (List.mem_cons_of_mem y hx))
        (le_min ha (hle y (List.mem_cons_self y l)))

/-- Counterexample to claim C7: with a single line of score 2 and `--top 1`,
the selected scores are `[2]` with minimum 2, but the summary value
`min_selected` (folded from the initial accumulator `1.0`) is 1, not 2. -/
theorem min_selected_counterexample :
    (selectedScores [(2 : ℚ)] 1).minimum = ((2 : ℚ) : WithBot ℚ) ∧
      minSelected [(2 : ℚ)] 1 ≠ 2 := by
  constructor
  · decide
  · decide

/-- Claim C7 as amended: the top-N summary reports `min 1 (minimum selected
score)`; whenever at least one line is selected and the least selected score is
at most 1 (as cosine scores of normalised vectors are), the reported value is
exactly the minimum score among the selected lines. -/
theorem min_selected_reports_min (scores : List ℚ) (N : ℕ) (s : ℚ)
    (hmem : s ∈ selectedScores scores N)
    (hmin : ∀ x ∈ selectedScores scores N, s ≤ x) (h1 : s ≤ 1) :
    minSelected scores N = s :=
  foldl_min_eq (selectedScores scores N) s 1 hmem hmin h1

/-- Witness for C7 (amended) at scores `[1, 0]` with `N = 2`: the reported
minimum selected score is 0. -/
theorem min_selected_reports_min_witness :
    minSelected [(1 : ℚ), 0] 2 = 0 :=
  min_selected_reports_min [(1 : ℚ), 0] 2 0 (by decide) (by decide) (by decide)

/-- Claim C1 fails on the code (`main.rs` 171-182 breaks the absorption loop
at the first non-matching line): with matches at indices 0 and 2, `before = 2`,
`after = 0`, the two emitted windows `[0,1)` and `[0,3)` overlap (neither
disjoint nor of increasing starts); and with matches at 0 and 2, `before = 0`,
`after = 2` over five lines, index 3 is within after-reach of match 2 yet is
never rendered, so the rendered union is not the reach set. -/
theorem batch_window_invariants_counterexample :
    batchWindows [true, false, true] 2 0 0 = [(0, 1), (0, 3)] ∧
      inReachB [true, false, true, false, false] 0 2 3 = true ∧
      3 ∉ batchRenderedIdxs [true, false, true, false, false] 0 2 := by
  refine ⟨by simp [batchWindows, windowEnd, extendEnd], by decide, ?_⟩
  have h : batchRenderedIdxs [true, false, true, false, false] 0 2 = [0, 1, 2] := by
    simp [batchRenderedIdxs, batchTokens, windowEnd, extendEnd, Sum.getLeft?, List.range']
  rw [h]
  decide

/-- Claim C2 fails on the code: with matches at indices 0 and 2, `before = 2`,
`after = 0`, the batch engine emits `[0,1)` and `[0,3)` while the classic
interval merge of `[max(0,i-before), min(len,i+1+after))` yields the single
block `[0,3)`; the code's absorption loop stops at the non-matching index 1
and never reaches match 2, whose merged interval overlaps the open window. -/
theorem batch_vs_interval_merge_counterexample :
    batchWindows [true, false, true] 2 0 0 = [(0, 1), (0, 3)] ∧
      specMergedWindows [true, false, true] 2 0 = [(0, 3)] :=
  ⟨by simp [batchWindows, windowEnd, extendEnd], by decide⟩

/-- Claim C3 fails on the code: with a single match at index 0 of two lines
and no context, the code prints a `--` after the final (only) window, which
the claim forbids; and with matches at 0 and 2, `before = 1`, `after = 0`,
the two windows `[0,1)` and `[1,3)` are adjacent yet a separator is printed
between them. -/
theorem batch_sep_counterexample :
    batchTokens [true, false] 0 0 0 = [Sum.inl 0, Sum.inr ()] ∧
      claimSepTokens (batchWindows [true, false] 0 0 0) = [Sum.inl 0] ∧
      batchWindows [true, false, true] 1 0 0 = [(0, 1), (1, 3)] ∧
      batchTokens [true, false, true] 1 0 0 =
        [Sum.inl 0, Sum.inr (), Sum.inl 1, Sum.inl 2] := by
  refine ⟨by simp [batchTokens, windowEnd, extendEnd], ?_,
    by simp [batchWindows, windowEnd, extendEnd],
    by simp [batchTokens, windowEnd, extendEnd, List.range']⟩
  have h : batchWindows [true, false] 0 0 0 = [(0, 1)] := by
    simp [batchWindows, windowEnd, extendEnd]
  rw [h]
  decide

/-- Claim C3 as amended: the batch loop's printed tokens are exactly the
emitted windows rendered in order with a `--` separator after each window
whose end is strictly below the line count — between consecutive windows
whether or not they are adjacent, and after the final window whenever it does
not reach the end of input. -/
theorem batch_sep_iff_window_end_lt_len (m : List Bool) (before after : ℕ) (i : ℕ) :
    batchTokens m before after i = windowsSepRender m.length (batchWindows m before after i) := by
  induction i using batchTokens.induct m before after with
  | case1 i h hm ih =>
    rw [batchTokens, batchWindows, dif_pos h, dif_pos h, if_pos hm, if_pos hm,
      windowsSepRender, ih]
  | case2 i h hm ih =>
    rw [batchTokens, batchWindows, dif_pos h, dif_pos h, if_neg (by simpa using hm),
      if_neg (by simpa using hm)]
    exact ih
  | case3 i h =>
    rw [batchTokens, batchWindows, dif_neg h, dif_neg h, windowsSepRender]

/-- Claim C4 fails on the code: for scores `[1,0,1,0,0]` at threshold 1 with
`before = 0`, `after = 2`, the streaming engine renders all five lines (the
after-context of the match at index 2 included) while the batch engine stops
its block at index 2 and renders only lines 0-2. -/
theorem stream_batch_before0_counterexample :
    streamRenderedIdxs [1, 0, 1, 0, 0] 1 0 2 = [0, 1, 2, 3, 4] ∧
      batchRenderedIdxs (thresholdMask [1, 0, 1, 0, 0] 1) 0 2 = [0, 1, 2] := by
  refine ⟨by decide, ?_⟩
  have hmask : thresholdMask [1, 0, 1, 0, 0] 1 = [true, false, true, false, false] := by
    decide
  rw [hmask]
  simp [batchRenderedIdxs, batchTokens, windowEnd, extendEnd, Sum.getLeft?, List.range']

/-- Claim C5: on scores `[1, 0, 0, 1]` at threshold 1 with `before = 2`,
`after = 1`, the streaming engine prints line 1 twice — once as after-context
of the block of match 0 and again, flushed from the before-buffer, as leading
context of the block of match 3. -/
theorem stream_prints_line_twice :
    streamTokens [1, 0, 0, 1] 1 2 1 =
        [Sum.inl 0, Sum.inl 1, Sum.inr (), Sum.inl 1, Sum.inl 2, Sum.inl 3] ∧
      (streamRenderedIdxs [1, 0, 0, 1] 1 2 1).count 1 = 2 := by
  decide

lemma streamStep_buf (t : ℚ) (b a : ℕ) (st : StreamState) (idx : ℕ) (s : ℚ) :
    (streamStep t b a st idx s).1.beforeBuf = pushBuf b st.beforeBuf idx := by
  unfold streamStep
  split
  · rfl
  · split
    · rfl
    · rfl

lemma streamProc_fst_append (t : ℚ) (b a : ℕ) (l1 l2 : List ℚ) :
    ∀ (st : StreamState) (idx : ℕ),
      (streamProc t b a st idx (l1 ++ l2)).1 =
        (streamProc t b a (streamProc t b a st idx l1).1 (idx + l1.length) l2).1 := by
  induction l1 with
  | nil =>
    intro st idx
    simp [streamProc]
  | cons s l1 ih =>
    intro st idx
    rw [List.cons_append]
    simp only [streamProc, List.length_cons]
    rw [ih]
    have harith : idx + (l1.length + 1) = idx + 1 + l1.length := by omega
    rw [harith]

lemma streamStateAfter_succ (scores : List ℚ) (t : ℚ) (b a : ℕ) (k : ℕ)
    (hk : k < scores.length) :
    streamStateAfter scores t b a (k + 1) =
      (streamStep t b a (streamStateAfter scores t b a k) k (scores.getD k 0)).1 := by
  unfold streamStateAfter
  rw [List.take_succ, List.getElem?_eq_getElem hk]
  simp only [Option.toList_some]
  rw [streamProc_fst_append]
  have hlen : (scores.take k).length = k := by
    rw [List.length_take]
    omega
  rw [hlen]
  simp only [streamProc, Nat.zero_add]
  rw [List.getD_eq_getElem?_getD, List.getElem?_eq_getElem hk, Option.getD_some]

/-- Claim C6: in streaming mode with `before > 0`, after each of the first `k`
input lines the before-buffer holds exactly the last `min k before` line
indices in order — so it never exceeds `before` entries, the current line is
pushed after every step whether or not it was rendered, and the oldest entry
is evicted exactly when the buffer is full. -/
theorem stream_before_buffer_invariant (scores : List ℚ) (t : ℚ) (b a : ℕ)
    (hb : 0 < b) :
    ∀ k, k ≤ scores.length →
      (streamStateAfter scores t b a k).beforeBuf = (List.range k).drop (k - b) := by
  intro k
  induction k with
  | zero =>
    intro _
    simp [streamStateAfter, streamProc, initState]
  | succ k ih =>
    intro hk1
    have hk : k < scores.length := by omega
    rw [streamStateAfter_succ scores t b a k hk, streamStep_buf, ih (by omega)]
    unfold pushBuf
    rw [if_pos hb]
    have hlen : ((List.range k).drop (k - b)).length = k - (k - b) := by
      rw [List.length_drop, List.length_range]
    by_cases hcase : b ≤ k
    · have hfull : ((List.range k).drop (k - b)).length = b := by omega
      rw [if_pos hfull, List.tail_drop, List.range_succ,
        List.drop_append_of_le_length (by rw [List.length_range]; omega)]
      have h1 : k - b + 1 = k + 1 - b := by omega
      rw [h1]
    · have hnotfull : ¬ ((List.range k).drop (k - b)).length = b := by omega
      rw [if_neg hnotfull]
      have h0 : k - b = 0 := by omega
      have h0' : k + 1 - b = 0 := by omega
      rw [h0, h0', List.drop_zero, List.drop_zero, List.range_succ]

/-- Witness for C6 at three zero-score lines, threshold 1, `before = 1`,
after two processed lines: the buffer is exactly `[1]`. -/
theorem stream_before_buffer_invariant_witness :
    (streamStateAfter [0, 0, 0] 1 1 0 2).beforeBuf = (List.range 2).drop (2 - 1) :=
  stream_before_buffer_invariant [0, 0, 0] 1 1 0 (by decide) 2 (by decide)

end Vecgrep
